import Mathlib

/-!
Verification of the path-enumeration engine of src/07/day07.c.

The program simulates paths through a character grid, generation by
generation.  A path at (row, col) advances to row + 1; if the cell there
is a deflector (the caret character) it branches left and right (when in
bounds), otherwise it passes straight through.  Paths that step past the
last row are retired: their turn signatures are inserted into a chained
hash set, and a counter is incremented exactly when the insertion was new.
-/

namespace Day07

/-- The grid: a list of rows of characters, mirroring the global
2-D array of the C source.  As in the source, the height is the number of
rows read and the width is the length of the first row; cells outside any
row read as the zero byte, since the global array is zero-initialised. -/
structure Grid where
  cells : List (List Char)
deriving DecidableEq

def Grid.height (g : Grid) : Nat := g.cells.length

def Grid.width (g : Grid) : Nat := (g.cells.headD []).length

def Grid.cell (g : Grid) (r c : Nat) : Char := (g.cells.getD r []).getD c (Char.ofNat 0)

/-- A well-formed rectangular grid: positive dimensions, all rows of
length width. -/
def Grid.Valid (g : Grid) : Prop :=
  0 < g.height ∧ 0 < g.width ∧ ∀ row ∈ g.cells, row.length = g.width

/-- One in-flight exploration state, mirroring struct Path of the source
(the signature buffer is modelled by the list of its first sig_len
characters). -/
structure Path where
  row : Nat
  col : Nat
  sig : List Char
deriving DecidableEq

def HASH_TABLE_SIZE : Nat := 1048576

def UINT_MOD : Nat := 4294967296

/-- The djb2-style hash of the source: hash = ((hash << 5) + hash) + byte
in unsigned 32-bit arithmetic, reduced modulo the table size. -/
def hash_string (s : List Char) : Nat :=
  (s.foldl (fun h ch => ((h <<< 5) + h + ch.toNat) % UINT_MOD) 5381) % HASH_TABLE_SIZE

/-- The chained hash set.  nodes lists every stored node as a pair of its
bucket index and its stored string; a bucket's chain is the sublist of
nodes with that bucket index, newest first, exactly as chains grow by
prepending in the source. -/
structure HashSet where
  nodes : List (Nat × List Char)
  size : Nat
deriving DecidableEq

def HashSet.empty : HashSet := ⟨[], 0⟩

def HashSet.contents (s : HashSet) : List (List Char) := s.nodes.map Prod.snd

/-- The comparison performed on one chain node:
memcmp(node.signature, str, len) == 0 and node.signature[len] == 0.
The stored bytes are the stored string followed by its terminator; a read
past the terminator is out of bounds and modelled by a junk nonzero
default byte. -/
def cstr_match (stored str : List Char) : Bool :=
  ((stored ++ [Char.ofNat 0]).take str.length == str) &&
    ((stored ++ [Char.ofNat 0]).getD str.length (Char.ofNat 1) == Char.ofNat 0)

/-- hash_set_add of the source: walk the bucket's chain; if a node
matches, return false leaving the set unchanged; otherwise prepend a new
node to the bucket's chain, bump size and return true. -/
def hash_set_add (set : HashSet) (str : List Char) : Bool × HashSet :=
  let h := hash_string str
  if (set.nodes.filter (fun n => n.1 == h)).any (fun n => cstr_match n.2 str) then
    (false, set)
  else
    (true, ⟨(h, str) :: set.nodes, set.size + 1⟩)

/-- Expansion of one path already known to stay inside the grid
(next_row < height), from the body of the generation loop of part2. -/
def expand (g : Grid) (p : Path) : List Path :=
  if g.cell (p.row + 1) p.col = '^' then
    (if 0 < p.col then [⟨p.row + 1, p.col - 1, p.sig ++ ['L']⟩] else []) ++
      (if p.col < g.width - 1 then [⟨p.row + 1, p.col + 1, p.sig ++ ['R']⟩] else [])
  else
    [⟨p.row + 1, p.col, p.sig ++ ['D']⟩]

/-- Successors of one path in one generation: none if the path exits the
grid (it is retired instead), otherwise its expansion. -/
def succsOf (g : Grid) (p : Path) : List Path :=
  if g.height ≤ p.row + 1 then [] else expand g p

/-- Retiring one signature: add it to the set and increment the counter
exactly when the insertion reports a new signature. -/
def retireStep (s : HashSet) (c : Nat) (sig : List Char) : HashSet × Nat :=
  let r := hash_set_add s sig
  (r.2, if r.1 then c + 1 else c)

/-- One generation of part2: process the frontier in order, retiring
exiting paths into the set and appending the successors of the others to
the next frontier. -/
def stepGen (g : Grid) : List Path → HashSet → Nat → List Path × HashSet × Nat
  | [], s, c => ([], s, c)
  | p :: f, s, c =>
    if g.height ≤ p.row + 1 then
      let r := retireStep s c p.sig
      stepGen g f r.1 r.2
    else
      let rest := stepGen g f s c
      (expand g p ++ rest.1, rest.2.1, rest.2.2)

/-- The generation loop of part2, with explicit fuel.  The loop of the
source runs until the frontier empties; height + 1 generations always
suffice (proved below), so part2 runs with that fuel. -/
def runSim (g : Grid) : Nat → List Path → HashSet → Nat → HashSet × Nat
  | 0, _, s, c => (s, c)
  | fuel + 1, f, s, c =>
    if f.isEmpty then (s, c)
    else
      let r := stepGen g f s c
      runSim g fuel r.1 r.2.1 r.2.2

def initPath (start_col : Nat) : Path := ⟨0, start_col, []⟩

/-- The terminal hash set and counter of a full run of part2. -/
def part2Run (g : Grid) (start_col : Nat) : HashSet × Nat :=
  runSim g (g.height + 1) [initPath start_col] HashSet.empty 0

/-- part2 of the source: the terminal counter. -/
def part2 (g : Grid) (start_col : Nat) : Nat := (part2Run g start_col).2

/-- The start-column scan of main: the first column of row 0 holding the
start marker, defaulting to 0 when none is found. -/
def find_start_col (g : Grid) : Nat :=
  ((List.range g.width).find? (fun c => g.cell 0 c == 'S')).getD 0

/-- The result printed by main: part2 at the detected start column. -/
def day07_main (g : Grid) : Nat := part2 g (find_start_col g)

/-! Specification-side recursors used to state and prove properties of
the run: the next frontier, the signatures retired in one generation, the
sequence of frontiers, and all signatures retired over a run. -/

def nextFrontier (g : Grid) : List Path → List Path
  | [] => []
  | p :: f => succsOf g p ++ nextFrontier g f

def retiredOf (g : Grid) : List Path → List (List Char)
  | [] => []
  | p :: f => if g.height ≤ p.row + 1 then p.sig :: retiredOf g f else retiredOf g f

def addRetired (s : HashSet) (c : Nat) : List (List Char) → HashSet × Nat
  | [] => (s, c)
  | sig :: rest =>
    let r := retireStep s c sig
    addRetired r.1 r.2 rest

def frontiersFrom (g : Grid) : Nat → List Path → List Path
  | 0, f => f
  | k + 1, f => frontiersFrom g k (nextFrontier g f)

/-- The frontier alive at the start of generation k of part2. -/
def frontiers (g : Grid) (start_col : Nat) (k : Nat) : List Path :=
  frontiersFrom g k [initPath start_col]

def runRetired (g : Grid) : Nat → List Path → List (List Char)
  | 0, _ => []
  | fuel + 1, f =>
    if f.isEmpty then []
    else retiredOf g f ++ runRetired g fuel (nextFrontier g f)

/-- The signatures of all paths that reach row at or past height during a
full run of part2, in retirement order, duplicates included. -/
def allRetired (g : Grid) (start_col : Nat) : List (List Char) :=
  runRetired g (g.height + 1) [initPath start_col]

/-- Signatures the engine can build: strings over L, R, D. -/
def SigOK (sig : List Char) : Prop := ∀ ch ∈ sig, ch = 'L' ∨ ch = 'R' ∨ ch = 'D'

/-- Well-formedness of a hash-set state: every node sits in the bucket of
its stored string's hash, stores no zero byte, size counts the nodes, and
no string is stored twice. -/
def SetWF (s : HashSet) : Prop :=
  (∀ n ∈ s.nodes, n.1 = hash_string n.2 ∧ Char.ofNat 0 ∉ n.2) ∧
    s.size = s.nodes.length ∧ s.contents.Nodup

instance (sig : List Char) : Decidable (SigOK sig) :=
  inferInstanceAs (Decidable (∀ ch ∈ sig, ch = 'L' ∨ ch = 'R' ∨ ch = 'D'))

instance (g : Grid) : Decidable g.Valid :=
  inferInstanceAs (Decidable (0 < g.height ∧ 0 < g.width ∧ ∀ row ∈ g.cells, row.length = g.width))

instance (s : HashSet) : Decidable (SetWF s) :=
  inferInstanceAs (Decidable ((∀ n ∈ s.nodes, n.1 = hash_string n.2 ∧ Char.ofNat 0 ∉ n.2) ∧
    s.size = s.nodes.length ∧ s.contents.Nodup))

/-! Basic facts about the comparison and the hash set. -/

lemma SigOK_not_null {sig : List Char} (h : SigOK sig) : Char.ofNat 0 ∉ sig := by
  intro hm
  have h2 := h _ hm
  revert h2
  decide

lemma cstr_match_eq_iff (stored str : List Char)
    (hs : Char.ofNat 0 ∉ stored) (ht : Char.ofNat 0 ∉ str) :
    cstr_match stored str = true ↔ stored = str := by
  unfold cstr_match
  rcases Nat.lt_trichotomy str.length stored.length with hlt | heq | hgt
  · have h1 : (stored ++ [Char.ofNat 0]).getD str.length (Char.ofNat 1)
        = stored.getD str.length (Char.ofNat 1) := List.getD_append _ _ _ _ hlt
    have h2 : stored.getD str.length (Char.ofNat 1) ∈ stored := by
      rw [List.getD_eq_getElem _ _ hlt]
      exact List.getElem_mem _
    have h3 : stored.getD str.length (Char.ofNat 1) ≠ Char.ofNat 0 := fun e => hs (e ▸ h2)
    have hb : ((stored ++ [Char.ofNat 0]).getD str.length (Char.ofNat 1)
        == Char.ofNat 0) = false := by
      rw [h1]
      exact beq_eq_false_iff_ne.mpr h3
    rw [hb, Bool.and_false]
    simp only [Bool.false_eq_true, false_iff]
    intro he
    rw [he] at hlt
    exact Nat.lt_irrefl _ hlt
  · have htake : (stored ++ [Char.ofNat 0]).take str.length = stored := by
      rw [heq]
      exact List.take_left _ _
    have hgetD : (stored ++ [Char.ofNat 0]).getD str.length (Char.ofNat 1) = Char.ofNat 0 := by
      rw [heq, List.getD_append_right _ _ _ _ (Nat.le_refl _), Nat.sub_self]
      rfl
    rw [htake, hgetD]
    simp [beq_iff_eq]
  · have hlen : (stored ++ [Char.ofNat 0]).length ≤ str.length := by
      simp only [List.length_append, List.length_cons, List.length_nil]
      omega
    have htake : (stored ++ [Char.ofNat 0]).take str.length = stored ++ [Char.ofNat 0] :=
      List.take_of_length_le hlen
    have hne : ((stored ++ [Char.ofNat 0]).take str.length == str) = false := by
      rw [htake]
      apply beq_eq_false_iff_ne.mpr
      intro he
      apply ht
      rw [← he]
      simp
    rw [hne, Bool.false_and]
    simp only [Bool.false_eq_true, false_iff]
    intro he
    rw [he] at hgt
    exact Nat.lt_irrefl _ hgt

lemma SetWF_empty : SetWF HashSet.empty := by
  constructor
  · intro n hn
    simp [HashSet.empty] at hn
  · constructor <;> simp [HashSet.empty, HashSet.contents]

/-- The bucket walk of hash_set_add finds a match exactly when the string
is already stored, for well-formed states and terminator-free strings. -/
lemma add_probe_iff (s : HashSet) (sig : List Char) (hwf : SetWF s)
    (hnf : Char.ofNat 0 ∉ sig) :
    ((s.nodes.filter (fun n => n.1 == hash_string sig)).any
        (fun n => cstr_match n.2 sig) = true) ↔ sig ∈ s.contents := by
  rw [List.any_eq_true]
  constructor
  · rintro ⟨n, hn, hc⟩
    rw [List.mem_filter] at hn
    have hnode := hwf.1 n hn.1
    have : n.2 = sig := (cstr_match_eq_iff n.2 sig hnode.2 hnf).mp hc
    exact this ▸ List.mem_map_of_mem Prod.snd hn.1
  · intro hmem
    rcases List.mem_map.mp hmem with ⟨n, hn, he⟩
    refine ⟨n, List.mem_filter.mpr ⟨hn, ?_⟩, ?_⟩
    · have hnode := hwf.1 n hn
      rw [beq_iff_eq, hnode.1, he]
    · rw [cstr_match_eq_iff n.2 sig ((hwf.1 n hn).2) hnf]
      exact he

lemma hash_set_add_of_mem {s : HashSet} {sig : List Char} (hwf : SetWF s)
    (hnf : Char.ofNat 0 ∉ sig) (h : sig ∈ s.contents) :
    hash_set_add s sig = (false, s) := by
  unfold hash_set_add
  rw [if_pos ((add_probe_iff s sig hwf hnf).mpr h)]

lemma hash_set_add_of_not_mem {s : HashSet} {sig : List Char} (hwf : SetWF s)
    (hnf : Char.ofNat 0 ∉ sig) (h : sig ∉ s.contents) :
    hash_set_add s sig
      = (true, ⟨(hash_string sig, sig) :: s.nodes, s.size + 1⟩) := by
  unfold hash_set_add
  rw [if_neg (fun hc => h ((add_probe_iff s sig hwf hnf).mp hc))]

lemma SetWF_insert {s : HashSet} {sig : List Char} (hwf : SetWF s)
    (hnf : Char.ofNat 0 ∉ sig) (h : sig ∉ s.contents) :
    SetWF ⟨(hash_string sig, sig) :: s.nodes, s.size + 1⟩ := by
  refine ⟨?_, ?_, ?_⟩
  · intro n hn
    rcases List.mem_cons.mp hn with he | hn2
    · subst he
      exact ⟨rfl, hnf⟩
    · exact hwf.1 n hn2
  · simp [hwf.2.1]
  · have hc : HashSet.contents ⟨(hash_string sig, sig) :: s.nodes, s.size + 1⟩
        = sig :: s.contents := rfl
    rw [hc]
    exact List.nodup_cons.mpr ⟨h, hwf.2.2⟩

/-- On any state, size after an add reflects the returned flag. -/
lemma hash_set_add_size (s : HashSet) (sig : List Char) :
    ((hash_set_add s sig).2).size
      = if (hash_set_add s sig).1 then s.size + 1 else s.size := by
  unfold hash_set_add
  by_cases hc : ((s.nodes.filter (fun n => n.1 == hash_string sig)).any
      (fun n => cstr_match n.2 sig) = true)
  · rw [if_pos hc]
    simp
  · rw [if_neg hc]
    simp

lemma retireStep_of_mem {s : HashSet} {sig : List Char} (hwf : SetWF s)
    (hnf : Char.ofNat 0 ∉ sig) (h : sig ∈ s.contents) (c : Nat) :
    retireStep s c sig = (s, c) := by
  simp [retireStep, hash_set_add_of_mem hwf hnf h]

lemma retireStep_of_not_mem {s : HashSet} {sig : List Char} (hwf : SetWF s)
    (hnf : Char.ofNat 0 ∉ sig) (h : sig ∉ s.contents) (c : Nat) :
    retireStep s c sig
      = (⟨(hash_string sig, sig) :: s.nodes, s.size + 1⟩, c + 1) := by
  simp [retireStep, hash_set_add_of_not_mem hwf hnf h]

lemma addRetired_spec :
    ∀ (l : List (List Char)) (s : HashSet) (c : Nat), SetWF s →
      (∀ sig ∈ l, Char.ofNat 0 ∉ sig) →
      SetWF (addRetired s c l).1 ∧
        (∀ x, x ∈ (addRetired s c l).1.contents ↔ x ∈ s.contents ∨ x ∈ l) ∧
        (addRetired s c l).2 + s.size = c + (addRetired s c l).1.size := by
  intro l
  induction l with
  | nil =>
    intro s c hwf _
    refine ⟨hwf, ?_, rfl⟩
    intro x
    simp [addRetired]
  | cons sig rest ih =>
    intro s c hwf hnf
    have hnsig : Char.ofNat 0 ∉ sig := hnf sig (List.mem_cons_self _ _)
    have hnrest : ∀ x ∈ rest, Char.ofNat 0 ∉ x := fun x hx => hnf x (List.mem_cons_of_mem _ hx)
    by_cases hm : sig ∈ s.contents
    · have hstep : addRetired s c (sig :: rest) = addRetired s c rest := by
        simp [addRetired, retireStep_of_mem hwf hnsig hm]
      rcases ih s c hwf hnrest with ⟨h1, h2, h3⟩
      rw [hstep]
      refine ⟨h1, ?_, h3⟩
      intro x
      rw [h2 x, List.mem_cons]
      constructor
      · rintro (hx | hx)
        · exact Or.inl hx
        · exact Or.inr (Or.inr hx)
      · rintro (hx | hx | hx)
        · exact Or.inl hx
        · exact Or.inl (hx ▸ hm)
        · exact Or.inr hx
    · have hwf2 : SetWF ⟨(hash_string sig, sig) :: s.nodes, s.size + 1⟩ :=
        SetWF_insert hwf hnsig hm
      have hstep : addRetired s c (sig :: rest)
          = addRetired ⟨(hash_string sig, sig) :: s.nodes, s.size + 1⟩ (c + 1) rest := by
        simp [addRetired, retireStep_of_not_mem hwf hnsig hm]
      rcases ih ⟨(hash_string sig, sig) :: s.nodes, s.size + 1⟩ (c + 1) hwf2 hnrest
        with ⟨h1, h2, h3⟩
      rw [hstep]
      refine ⟨h1, ?_, ?_⟩
      · intro x
        rw [h2 x]
        have hc : HashSet.contents ⟨(hash_string sig, sig) :: s.nodes, s.size + 1⟩
            = sig :: s.contents := rfl
        rw [hc, List.mem_cons, List.mem_cons]
        constructor
        · rintro ((hx | hx) | hx)
          · exact Or.inr (Or.inl hx)
          · exact Or.inl hx
          · exact Or.inr (Or.inr hx)
        · rintro (hx | hx | hx)
          · exact Or.inl (Or.inr hx)
          · exact Or.inl (Or.inl hx)
          · exact Or.inr hx
      · have hsz : (HashSet.mk ((hash_string sig, sig) :: s.nodes) (s.size + 1)).size
            = s.size + 1 := rfl
        omega

lemma stepGen_eq (g : Grid) :
    ∀ (f : List Path) (s : HashSet) (c : Nat),
      stepGen g f s c = (nextFrontier g f, addRetired s c (retiredOf g f)) := by
  intro f
  induction f with
  | nil => intro s c; rfl
  | cons p f ih =>
    intro s c
    by_cases hterm : g.height ≤ p.row + 1
    · simp [stepGen, nextFrontier, retiredOf, succsOf, addRetired, hterm, ih]
    · simp [stepGen, nextFrontier, retiredOf, succsOf, hterm, ih]

/-! Structure of expansions and frontier invariants. -/

lemma expand_cases {g : Grid} {p q : Path} (hq : q ∈ expand g p) :
    (q = ⟨p.row + 1, p.col - 1, p.sig ++ ['L']⟩ ∧ 0 < p.col) ∨
      (q = ⟨p.row + 1, p.col + 1, p.sig ++ ['R']⟩ ∧ p.col < g.width - 1) ∨
      q = ⟨p.row + 1, p.col, p.sig ++ ['D']⟩ := by
  unfold expand at hq
  by_cases hc : g.cell (p.row + 1) p.col = '^'
  · rw [if_pos hc] at hq
    rcases List.mem_append.mp hq with h1 | h1
    · by_cases h0 : 0 < p.col
      · rw [if_pos h0] at h1
        exact Or.inl ⟨List.mem_singleton.mp h1, h0⟩
      · rw [if_neg h0] at h1
        exact absurd h1 (List.not_mem_nil q)
    · by_cases h0 : p.col < g.width - 1
      · rw [if_pos h0] at h1
        exact Or.inr (Or.inl ⟨List.mem_singleton.mp h1, h0⟩)
      · rw [if_neg h0] at h1
        exact absurd h1 (List.not_mem_nil q)
  · rw [if_neg hc] at hq
    exact Or.inr (Or.inr (List.mem_singleton.mp hq))

lemma succsOf_cases {g : Grid} {p q : Path} (hq : q ∈ succsOf g p) :
    p.row + 1 < g.height ∧ q ∈ expand g p := by
  unfold succsOf at hq
  by_cases hterm : g.height ≤ p.row + 1
  · rw [if_pos hterm] at hq
    exact absurd hq (List.not_mem_nil q)
  · rw [if_neg hterm] at hq
    exact ⟨Nat.lt_of_not_le hterm, hq⟩

lemma SigOK_append {sig : List Char} {ch : Char} (h : SigOK sig)
    (hch : ch = 'L' ∨ ch = 'R' ∨ ch = 'D') : SigOK (sig ++ [ch]) := by
  intro x hx
  rcases List.mem_append.mp hx with h1 | h1
  · exact h x h1
  · rw [List.mem_singleton.mp h1]
    exact hch

/-- The invariant every successor inherits: a row strictly inside the
grid, a column strictly inside the row, a signature over L, R, D whose
length counts the rows advanced. -/
def PathInv (g : Grid) (p : Path) : Prop :=
  p.row < g.height ∧ p.col < g.width ∧ SigOK p.sig ∧ p.sig.length = p.row

lemma succsOf_inv {g : Grid} {p q : Path} (hp : p.col < g.width ∧ SigOK p.sig ∧
    p.sig.length = p.row) (hq : q ∈ succsOf g p) : PathInv g q := by
  rcases succsOf_cases hq with ⟨hrow, hexp⟩
  rcases hp with ⟨hcol, hsig, hlen⟩
  rcases expand_cases hexp with ⟨he, h0⟩ | ⟨he, h0⟩ | he <;> subst he
  · refine ⟨hrow, ?_, SigOK_append hsig (Or.inl rfl), ?_⟩
    · show p.col - 1 < g.width
      omega
    · show (p.sig ++ ['L']).length = p.row + 1
      simp [hlen]
  · refine ⟨hrow, ?_, SigOK_append hsig (Or.inr (Or.inl rfl)), ?_⟩
    · show p.col + 1 < g.width
      omega
    · show (p.sig ++ ['R']).length = p.row + 1
      simp [hlen]
  · refine ⟨hrow, hcol, SigOK_append hsig (Or.inr (Or.inr rfl)), ?_⟩
    show (p.sig ++ ['D']).length = p.row + 1
    simp [hlen]

lemma nextFrontier_inv {g : Grid} :
    ∀ {f : List Path}, (∀ p ∈ f, p.col < g.width ∧ SigOK p.sig ∧ p.sig.length = p.row) →
      ∀ q ∈ nextFrontier g f, PathInv g q := by
  intro f
  induction f with
  | nil => intro _ q hq; exact absurd hq (List.not_mem_nil q)
  | cons p f ih =>
    intro hf q hq
    rcases List.mem_append.mp hq with h1 | h1
    · exact succsOf_inv (hf p (List.mem_cons_self _ _)) h1
    · exact ih (fun r hr => hf r (List.mem_cons_of_mem _ hr)) q h1

lemma frontiersFrom_inv {g : Grid} :
    ∀ (k : Nat) (f : List Path), (∀ p ∈ f, PathInv g p) →
      ∀ q ∈ frontiersFrom g k f, PathInv g q := by
  intro k
  induction k with
  | zero => intro f hf q hq; exact hf q hq
  | succ k ih =>
    intro f hf q hq
    exact ih (nextFrontier g f)
      (fun r hr => nextFrontier_inv (fun p hp => ⟨(hf p hp).2.1, (hf p hp).2.2⟩) r hr) q hq

lemma initPath_inv {g : Grid} {start_col : Nat} (h : start_col < g.width) :
    PathInv g (initPath start_col) := by
  have hpos : 0 < g.height := by
    rcases Nat.eq_zero_or_pos g.height with hz | hp
    · exfalso
      have hnil : g.cells = [] := List.length_eq_zero.mp hz
      rw [Grid.width, hnil] at h
      simp at h
    · exact hp
  exact ⟨hpos, h, fun ch hch => absurd hch (List.not_mem_nil ch), rfl⟩

lemma frontiers_inv {g : Grid} {start_col : Nat} (h : start_col < g.width) :
    ∀ (k : Nat), ∀ q ∈ frontiers g start_col k, PathInv g q := by
  intro k q hq
  refine frontiersFrom_inv k [initPath start_col] ?_ q hq
  intro p hp
  rw [List.mem_singleton.mp hp]
  exact initPath_inv h

lemma nextFrontier_sigOK {g : Grid} :
    ∀ {f : List Path}, (∀ p ∈ f, SigOK p.sig) →
      ∀ q ∈ nextFrontier g f, SigOK q.sig := by
  intro f
  induction f with
  | nil => intro _ q hq; exact absurd hq (List.not_mem_nil q)
  | cons p f ih =>
    intro hf q hq
    rcases List.mem_append.mp hq with h1 | h1
    · have hp := hf p (List.mem_cons_self _ _)
      rcases succsOf_cases h1 with ⟨_, hexp⟩
      rcases expand_cases hexp with ⟨he, _⟩ | ⟨he, _⟩ | he <;> subst he
      · exact SigOK_append hp (Or.inl rfl)
      · exact SigOK_append hp (Or.inr (Or.inl rfl))
      · exact SigOK_append hp (Or.inr (Or.inr rfl))
    · exact ih (fun r hr => hf r (List.mem_cons_of_mem _ hr)) q h1

lemma retiredOf_sigOK {g : Grid} :
    ∀ {f : List Path}, (∀ p ∈ f, SigOK p.sig) →
      ∀ sig ∈ retiredOf g f, SigOK sig := by
  intro f
  induction f with
  | nil => intro _ sig hs; exact absurd hs (List.not_mem_nil sig)
  | cons p f ih =>
    intro hf sig hs
    unfold retiredOf at hs
    by_cases hterm : g.height ≤ p.row + 1
    · rw [if_pos hterm] at hs
      rcases List.mem_cons.mp hs with he | hs2
      · exact he ▸ hf p (List.mem_cons_self _ _)
      · exact ih (fun r hr => hf r (List.mem_cons_of_mem _ hr)) sig hs2
    · rw [if_neg hterm] at hs
      exact ih (fun r hr => hf r (List.mem_cons_of_mem _ hr)) sig hs

lemma runSim_nil (g : Grid) (fuel : Nat) (s : HashSet) (c : Nat) :
    runSim g fuel [] s c = (s, c) := by
  cases fuel <;> rfl

lemma runSim_cons (g : Grid) (fuel : Nat) (p : Path) (f : List Path)
    (s : HashSet) (c : Nat) :
    runSim g (fuel + 1) (p :: f) s c
      = runSim g fuel (nextFrontier g (p :: f)) (addRetired s c (retiredOf g (p :: f))).1
          (addRetired s c (retiredOf g (p :: f))).2 := by
  have h : runSim g (fuel + 1) (p :: f) s c
      = runSim g fuel (stepGen g (p :: f) s c).1 (stepGen g (p :: f) s c).2.1
          (stepGen g (p :: f) s c).2.2 := rfl
  rw [h, stepGen_eq]

lemma runRetired_cons (g : Grid) (fuel : Nat) (p : Path) (f : List Path) :
    runRetired g (fuel + 1) (p :: f)
      = retiredOf g (p :: f) ++ runRetired g fuel (nextFrontier g (p :: f)) := rfl

/-- The main induction over the generation loop: starting from a
well-formed set, the run preserves well-formedness, the terminal set
holds exactly the old strings and the retired signatures, and the counter
advances by exactly the growth of the set. -/
lemma runSim_spec (g : Grid) :
    ∀ (fuel : Nat) (f : List Path) (s : HashSet) (c : Nat), SetWF s →
      (∀ p ∈ f, SigOK p.sig) →
      SetWF (runSim g fuel f s c).1 ∧
        (∀ x, x ∈ (runSim g fuel f s c).1.contents ↔
          x ∈ s.contents ∨ x ∈ runRetired g fuel f) ∧
        (runSim g fuel f s c).2 + s.size = c + (runSim g fuel f s c).1.size := by
  intro fuel
  induction fuel with
  | zero =>
    intro f s c hwf _
    refine ⟨hwf, ?_, rfl⟩
    intro x
    simp [runSim, runRetired]
  | succ fuel ih =>
    intro f s c hwf hf
    rcases f with _ | ⟨p, f0⟩
    · rw [runSim_nil]
      refine ⟨hwf, ?_, rfl⟩
      intro x
      simp [runRetired]
    · have hnull : ∀ sig ∈ retiredOf g (p :: f0), Char.ofNat 0 ∉ sig :=
        fun sig hs => SigOK_not_null (retiredOf_sigOK hf sig hs)
      rcases addRetired_spec (retiredOf g (p :: f0)) s c hwf hnull with ⟨hwf2, hmem2, hcnt2⟩
      rcases ih (nextFrontier g (p :: f0)) (addRetired s c (retiredOf g (p :: f0))).1
          (addRetired s c (retiredOf g (p :: f0))).2 hwf2 (nextFrontier_sigOK hf)
        with ⟨hwf3, hmem3, hcnt3⟩
      rw [runSim_cons, runRetired_cons]
      refine ⟨hwf3, ?_, ?_⟩
      · intro x
        rw [hmem3 x, hmem2 x, List.mem_append]
        tauto
      · omega

/-! Termination: the frontier empties after at most height generations. -/

lemma nextFrontier_row {g : Grid} {j : Nat} :
    ∀ {f : List Path}, (∀ p ∈ f, p.row = j) →
      ∀ q ∈ nextFrontier g f, q.row = j + 1 ∧ q.row < g.height := by
  intro f
  induction f with
  | nil => intro _ q hq; exact absurd hq (List.not_mem_nil q)
  | cons p f ih =>
    intro hf q hq
    rcases List.mem_append.mp hq with h1 | h1
    · rcases succsOf_cases h1 with ⟨hrow, hexp⟩
      have hp := hf p (List.mem_cons_self _ _)
      rcases expand_cases hexp with ⟨he, _⟩ | ⟨he, _⟩ | he <;> subst he <;>
        exact ⟨by show p.row + 1 = j + 1; omega, by show p.row + 1 < g.height; omega⟩
    · exact ih (fun r hr => hf r (List.mem_cons_of_mem _ hr)) q h1

lemma frontiersFrom_empty {g : Grid} :
    ∀ (k : Nat) (f : List Path) (j : Nat),
      (∀ p ∈ f, p.row = j ∧ p.row < g.height) → g.height ≤ j + k →
      frontiersFrom g k f = [] := by
  intro k
  induction k with
  | zero =>
    intro f j hf hk
    rcases f with _ | ⟨p, f⟩
    · rfl
    · exfalso
      have hp := hf p (List.mem_cons_self _ _)
      omega
  | succ k ih =>
    intro f j hf hk
    show frontiersFrom g k (nextFrontier g f) = []
    refine ih (nextFrontier g f) (j + 1) ?_ (by omega)
    intro q hq
    exact nextFrontier_row (fun p hp => (hf p hp).1) q hq

/-- Once the frontier is known to empty within k generations, any fuel of
at least k computes the same terminal state: the loop has truly
terminated. -/
lemma runSim_stable (g : Grid) :
    ∀ (k : Nat) (f : List Path) (s : HashSet) (c : Nat) (fuel : Nat),
      frontiersFrom g k f = [] → k ≤ fuel →
      runSim g fuel f s c = runSim g k f s c := by
  intro k
  induction k with
  | zero =>
    intro f s c fuel hk _
    have hf : f = [] := hk
    rw [hf, runSim_nil, runSim_nil]
  | succ k ih =>
    intro f s c fuel hk hfuel
    rcases f with _ | ⟨p, f0⟩
    · rw [runSim_nil, runSim_nil]
    · rcases fuel with _ | fuel
      · omega
      rw [runSim_cons, runSim_cons]
      exact ih (nextFrontier g (p :: f0)) _ _ fuel hk (by omega)

/-! The claims. -/

/-- C1: for every valid grid and start column inside the grid, part2
returns the number of distinct signatures among paths that reach row at
or past height, and this count equals the size of the dedup set at
termination. -/
theorem c1_part2_counts_distinct_signatures (g : Grid) (start_col : Nat)
    (hg : g.Valid) (hs : start_col < g.width) :
    part2 g start_col = (allRetired g start_col).dedup.length ∧
      part2 g start_col = (part2Run g start_col).1.size := by
  have hinit : ∀ p ∈ [initPath start_col], SigOK p.sig := by
    intro p hp
    rw [List.mem_singleton.mp hp]
    intro ch hch
    exact absurd hch (List.not_mem_nil ch)
  have hrun : part2Run g start_col
      = runSim g (g.height + 1) [initPath start_col] HashSet.empty 0 := rfl
  rcases runSim_spec g (g.height + 1) [initPath start_col] HashSet.empty 0 SetWF_empty hinit
    with ⟨hwf, hmem, hcnt⟩
  rw [← hrun] at hwf hmem hcnt
  have hsize : part2 g start_col = (part2Run g start_col).1.size := by
    have hz : HashSet.empty.size = 0 := rfl
    rw [hz] at hcnt
    show (part2Run g start_col).2 = (part2Run g start_col).1.size
    omega
  refine ⟨?_, hsize⟩
  have hnodup : (part2Run g start_col).1.contents.Nodup := hwf.2.2
  have hmem2 : ∀ x, x ∈ (part2Run g start_col).1.contents ↔ x ∈ allRetired g start_col := by
    intro x
    rw [hmem x]
    have he : x ∈ HashSet.empty.contents ↔ False := by
      simp [HashSet.empty, HashSet.contents]
    rw [he]
    exact or_iff_right_of_imp False.elim
  have hfin : (part2Run g start_col).1.contents.toFinset
      = (allRetired g start_col).toFinset := by
    ext x
    rw [List.mem_toFinset, List.mem_toFinset]
    exact hmem2 x
  calc part2 g start_col
      = (part2Run g start_col).1.size := hsize
    _ = (part2Run g start_col).1.nodes.length := hwf.2.1
    _ = (part2Run g start_col).1.contents.length := by
        simp [HashSet.contents]
    _ = (part2Run g start_col).1.contents.toFinset.card :=
        (List.toFinset_card_of_nodup hnodup).symm
    _ = (allRetired g start_col).toFinset.card := by rw [hfin]
    _ = (allRetired g start_col).dedup.length := List.card_toFinset _

theorem c1_witness :
    Grid.Valid ⟨[['.', 'S', '.'], ['.', '^', '.']]⟩ ∧
      1 < (Grid.mk [['.', 'S', '.'], ['.', '^', '.']]).width ∧
      part2 ⟨[['.', 'S', '.'], ['.', '^', '.']]⟩ 1
        = (allRetired ⟨[['.', 'S', '.'], ['.', '^', '.']]⟩ 1).dedup.length :=
  ⟨by decide, by decide,
    (c1_part2_counts_distinct_signatures ⟨[['.', 'S', '.'], ['.', '^', '.']]⟩ 1
      (by decide) (by decide)).1⟩

/-- C2: a path expanded strictly inside the grid emits, under a
deflector, the left successor with signature extended by L exactly when
its column is positive and the right successor with signature extended by
R exactly when its column is below width - 1; under any other cell it
emits exactly the one straight successor with signature extended by D. -/
theorem c2_branching_rule (g : Grid) (p : Path) (h : p.row + 1 < g.height) :
    (g.cell (p.row + 1) p.col = '^' →
      ((⟨p.row + 1, p.col - 1, p.sig ++ ['L']⟩ : Path) ∈ succsOf g p ↔ 0 < p.col) ∧
        ((⟨p.row + 1, p.col + 1, p.sig ++ ['R']⟩ : Path) ∈ succsOf g p ↔
          p.col < g.width - 1)) ∧
    (g.cell (p.row + 1) p.col ≠ '^' →
      succsOf g p = [⟨p.row + 1, p.col, p.sig ++ ['D']⟩]) := by
  have hsucc : succsOf g p = expand g p := by
    unfold succsOf
    rw [if_neg (Nat.not_le.mpr h)]
  constructor
  · intro hc
    rw [hsucc]
    unfold expand
    rw [if_pos hc]
    constructor
    · constructor
      · intro hmem
        by_cases h0 : 0 < p.col
        · exact h0
        · exfalso
          rw [if_neg h0] at hmem
          rcases List.mem_append.mp hmem with h1 | h1
          · exact absurd h1 (List.not_mem_nil _)
          · by_cases h2 : p.col < g.width - 1
            · rw [if_pos h2] at h1
              have he := List.mem_singleton.mp h1
              have hsig : p.sig ++ ['L'] = p.sig ++ ['R'] := congrArg Path.sig he
              simp at hsig
            · rw [if_neg h2] at h1
              exact absurd h1 (List.not_mem_nil _)
      · intro h0
        rw [if_pos h0]
        exact List.mem_append.mpr (Or.inl (List.mem_singleton.mpr rfl))
    · constructor
      · intro hmem
        by_cases h2 : p.col < g.width - 1
        · exact h2
        · exfalso
          rw [if_neg h2] at hmem
          rcases List.mem_append.mp hmem with h1 | h1
          · by_cases h0 : 0 < p.col
            · rw [if_pos h0] at h1
              have he := List.mem_singleton.mp h1
              have hsig : p.sig ++ ['R'] = p.sig ++ ['L'] := congrArg Path.sig he
              simp at hsig
            · rw [if_neg h0] at h1
              exact absurd h1 (List.not_mem_nil _)
          · exact absurd h1 (List.not_mem_nil _)
      · intro h2
        rw [if_pos h2]
        exact List.mem_append.mpr (Or.inr (List.mem_singleton.mpr rfl))
  · intro hc
    rw [hsucc]
    unfold expand
    rw [if_neg hc]

theorem c2_witness :
    (0 : Nat) + 1 < (Grid.mk [['.', 'S', '.'], ['.', '^', '.']]).height ∧
      (⟨1, 0, ['L']⟩ : Path)
        ∈ succsOf ⟨[['.', 'S', '.'], ['.', '^', '.']]⟩ ⟨0, 1, []⟩ :=
  ⟨by decide,
    (((c2_branching_rule ⟨[['.', 'S', '.'], ['.', '^', '.']]⟩ ⟨0, 1, []⟩
      (by decide)).1 (by decide)).1).mpr (by decide)⟩

/-- C3: on a reachable dedup-set state, adding a signature over L, R, D
succeeds and records it exactly when no byte-for-byte equal signature of
the same length is stored, fails without changing the state when one is,
and the engine bumps the terminal counter exactly when the add reports
true. -/
theorem c3_dedup_add_exact (sig : List Char) (s : HashSet)
    (hsig : SigOK sig) (hwf : SetWF s) :
    (sig ∉ s.contents →
      hash_set_add s sig = (true, ⟨(hash_string sig, sig) :: s.nodes, s.size + 1⟩) ∧
        sig ∈ ((hash_set_add s sig).2).contents) ∧
    (sig ∈ s.contents → hash_set_add s sig = (false, s)) ∧
    (∀ c, (retireStep s c sig).2 = if (hash_set_add s sig).1 then c + 1 else c) := by
  have hnf : Char.ofNat 0 ∉ sig := SigOK_not_null hsig
  refine ⟨?_, fun h => hash_set_add_of_mem hwf hnf h, fun c => rfl⟩
  intro h
  have hadd := hash_set_add_of_not_mem hwf hnf h
  refine ⟨hadd, ?_⟩
  rw [hadd]
  exact List.mem_cons_self _ _

theorem c3_witness :
    hash_set_add HashSet.empty ['L']
      = (true, ⟨[(hash_string ['L'], ['L'])], 1⟩) :=
  ((c3_dedup_add_exact ['L'] HashSet.empty (by decide) SetWF_empty).1
    (by decide)).1

/-- C4: the generation loop of part2 terminates: for a valid grid and an
in-range start column the frontier is empty after at most height
generations, and any fuel of at least height yields the same terminal
state as exactly height generations. -/
theorem c4_loop_terminates (g : Grid) (start_col : Nat)
    (hg : g.Valid) (hs : start_col < g.width) :
    frontiers g start_col g.height = [] ∧
      ∀ (fuel : Nat) (s : HashSet) (c : Nat), g.height ≤ fuel →
        runSim g fuel [initPath start_col] s c
          = runSim g g.height [initPath start_col] s c := by
  have hempty : frontiersFrom g g.height [initPath start_col] = [] := by
    refine frontiersFrom_empty g.height [initPath start_col] 0 ?_ (by omega)
    intro p hp
    rw [List.mem_singleton.mp hp]
    exact ⟨rfl, hg.1⟩
  refine ⟨hempty, ?_⟩
  intro fuel s c hfuel
  exact runSim_stable g g.height [initPath start_col] s c fuel hempty hfuel

theorem c4_witness :
    Grid.Valid ⟨[['.', 'S', '.'], ['.', '^', '.']]⟩ ∧
      1 < (Grid.mk [['.', 'S', '.'], ['.', '^', '.']]).width ∧
      frontiers ⟨[['.', 'S', '.'], ['.', '^', '.']]⟩ 1
        (Grid.mk [['.', 'S', '.'], ['.', '^', '.']]).height = [] :=
  ⟨by decide, by decide,
    (c4_loop_terminates ⟨[['.', 'S', '.'], ['.', '^', '.']]⟩ 1
      (by decide) (by decide)).1⟩

/-- C5: a path facing a deflector with no valid branch, at column 0 of a
width-one grid, produces zero successors, and processing it leaves the
dedup set and the terminal counter untouched. -/
theorem c5_dead_end_dropped (g : Grid) (p : Path) (s : HashSet) (c : Nat)
    (hrow : p.row + 1 < g.height) (hcell : g.cell (p.row + 1) p.col = '^')
    (h0 : ¬ 0 < p.col) (h1 : ¬ p.col < g.width - 1) :
    succsOf g p = [] ∧ stepGen g [p] s c = ([], s, c) := by
  have hexp : expand g p = [] := by
    unfold expand
    rw [if_pos hcell, if_neg h0, if_neg h1]
    rfl
  have hsucc : succsOf g p = [] := by
    unfold succsOf
    rw [if_neg (Nat.not_le.mpr hrow), hexp]
  refine ⟨hsucc, ?_⟩
  rw [stepGen_eq]
  have hnf : nextFrontier g [p] = [] := by
    show succsOf g p ++ nextFrontier g [] = []
    rw [hsucc]
    rfl
  have hret : retiredOf g [p] = [] := by
    show (if g.height ≤ p.row + 1 then p.sig :: retiredOf g [] else retiredOf g []) = []
    rw [if_neg (Nat.not_le.mpr hrow)]
    rfl
  rw [hnf, hret]
  rfl

theorem c5_witness :
    (0 : Nat) + 1 < (Grid.mk [['S'], ['^']]).height ∧
      succsOf ⟨[['S'], ['^']]⟩ ⟨0, 0, []⟩ = [] :=
  ⟨by decide,
    (c5_dead_end_dropped ⟨[['S'], ['^']]⟩ ⟨0, 0, []⟩ HashSet.empty 0
      (by decide) (by decide) (by decide) (by decide)).1⟩

/-- C6: with an in-range start column, every path of every frontier of
part2 has its row strictly below height and its column strictly below
width, and its signature uses only the symbols L, R and D. -/
theorem c6_frontier_invariant (g : Grid) (start_col : Nat) (hs : start_col < g.width) :
    ∀ (k : Nat), ∀ p ∈ frontiers g start_col k,
      p.row < g.height ∧ p.col < g.width ∧ SigOK p.sig := by
  intro k p hp
  rcases frontiers_inv hs k p hp with ⟨h1, h2, h3, _⟩
  exact ⟨h1, h2, h3⟩

theorem c6_witness :
    1 < (Grid.mk [['.', 'S', '.'], ['.', '^', '.']]).width ∧
      ((⟨1, 0, ['L']⟩ : Path).row < (Grid.mk [['.', 'S', '.'], ['.', '^', '.']]).height ∧
        (⟨1, 0, ['L']⟩ : Path).col < (Grid.mk [['.', 'S', '.'], ['.', '^', '.']]).width ∧
        SigOK (⟨1, 0, ['L']⟩ : Path).sig) :=
  ⟨by decide,
    c6_frontier_invariant ⟨[['.', 'S', '.'], ['.', '^', '.']]⟩ 1 (by decide) 1
      ⟨1, 0, ['L']⟩ (by decide)⟩

/-- C7: the start column consumed by the simulation is the column of the
unique start marker on row 0, and it defaults to 0 when row 0 holds no
start marker. -/
theorem c7_start_col_detection (g : Grid) :
    ((∀ c, c < g.width → g.cell 0 c ≠ 'S') →
      find_start_col g = 0 ∧ day07_main g = part2 g 0) ∧
    (∀ c, c < g.width → g.cell 0 c = 'S' →
      (∀ c2, c2 < g.width → g.cell 0 c2 = 'S' → c2 = c) →
      find_start_col g = c ∧ day07_main g = part2 g c) := by
  have hmain : day07_main g = part2 g (find_start_col g) := rfl
  constructor
  · intro hnone
    have hfind : (List.range g.width).find? (fun c => g.cell 0 c == 'S') = none := by
      rw [List.find?_eq_none]
      intro x hx
      rw [beq_iff_eq]
      exact hnone x (List.mem_range.mp hx)
    have h0 : find_start_col g = 0 := by
      unfold find_start_col
      rw [hfind]
      rfl
    exact ⟨h0, by rw [hmain, h0]⟩
  · intro c hc hS huniq
    have hfc : find_start_col g = c := by
      unfold find_start_col
      cases hfind : (List.range g.width).find? (fun x => g.cell 0 x == 'S') with
      | none =>
        exfalso
        have := List.find?_eq_none.mp hfind c (List.mem_range.mpr hc)
        rw [beq_iff_eq] at this
        exact this hS
      | some y =>
        have hy1 : g.cell 0 y = 'S' := by
          have := List.find?_some hfind
          rwa [beq_iff_eq] at this
        have hy2 : y < g.width := List.mem_range.mp (List.mem_of_find?_eq_some hfind)
        have : y = c := huniq y hy2 hy1
        rw [this]
        rfl
    exact ⟨hfc, by rw [hmain, hfc]⟩

theorem c7_witness :
    find_start_col ⟨[['.', 'S']]⟩ = 1 ∧
      day07_main ⟨[['.', 'S']]⟩ = part2 ⟨[['.', 'S']]⟩ 1 :=
  (c7_start_col_detection ⟨[['.', 'S']]⟩).2 1 (by decide) (by decide)
    (by decide)

/-- C8: on the two-row grid with a start marker at column 1 above a
deflector at column 1, part2 from column 1 returns 2: the deflector can
branch both ways, the two branches retire with the distinct signatures R
and L, and both are recorded. -/
theorem c8_scenario_b :
    part2 ⟨[['.', 'S', '.'], ['.', '^', '.']]⟩ 1 = 2 ∧
      (part2Run ⟨[['.', 'S', '.'], ['.', '^', '.']]⟩ 1).1.contents = [['R'], ['L']] := by
  decide

/-- C9: on any one-row grid holding only the start marker at some column,
part2 from that column returns 1: the initial path with empty signature
exits at once and that empty signature is counted exactly once. -/
theorem c9_single_row (g : Grid) (r : List Char) (c : Nat)
    (hg : g.cells = [r]) (hc : c < r.length)
    (hS : r.getD c (Char.ofNat 0) = 'S')
    (honly : ∀ i, i < r.length → i ≠ c → r.getD i (Char.ofNat 0) ≠ 'S') :
    part2 g c = 1 := by
  obtain ⟨cells⟩ := g
  have hg2 : cells = [r] := hg
  subst hg2
  rfl

theorem c9_witness :
    0 < (['S'] : List Char).length ∧ part2 ⟨[['S']]⟩ 0 = 1 :=
  ⟨by decide,
    c9_single_row ⟨[['S']]⟩ ['S'] 0 rfl (by decide) (by decide)
      (by decide)⟩

/-- C10 as stated is false on the code: the recorded signatures have
length height minus one, not height.  On the scenario-B grid of height 2
the signature R of length 1 is recorded. -/
theorem c10_counterexample :
    ['R'] ∈ (part2Run ⟨[['.', 'S', '.'], ['.', '^', '.']]⟩ 1).1.contents ∧
      (['R'] : List Char).length ≠ (Grid.mk [['.', 'S', '.'], ['.', '^', '.']]).height := by
  decide

lemma retiredOf_mem {g : Grid} :
    ∀ {f : List Path} {sig : List Char}, sig ∈ retiredOf g f →
      ∃ p ∈ f, g.height ≤ p.row + 1 ∧ sig = p.sig := by
  intro f
  induction f with
  | nil => intro sig hs; exact absurd hs (List.not_mem_nil sig)
  | cons p f ih =>
    intro sig hs
    unfold retiredOf at hs
    by_cases hterm : g.height ≤ p.row + 1
    · rw [if_pos hterm] at hs
      rcases List.mem_cons.mp hs with he | hs2
      · exact ⟨p, List.mem_cons_self _ _, hterm, he⟩
      · rcases ih hs2 with ⟨q, hq, h1, h2⟩
        exact ⟨q, List.mem_cons_of_mem _ hq, h1, h2⟩
    · rw [if_neg hterm] at hs
      rcases ih hs with ⟨q, hq, h1, h2⟩
      exact ⟨q, List.mem_cons_of_mem _ hq, h1, h2⟩

lemma runRetired_length {g : Grid} :
    ∀ (fuel : Nat) (f : List Path), (∀ p ∈ f, PathInv g p) →
      ∀ sig ∈ runRetired g fuel f, sig.length = g.height - 1 := by
  intro fuel
  induction fuel with
  | zero => intro f _ sig hs; exact absurd hs (List.not_mem_nil sig)
  | succ fuel ih =>
    intro f hf sig hs
    rcases f with _ | ⟨p, f0⟩
    · exact absurd hs (List.not_mem_nil sig)
    · rw [runRetired_cons] at hs
      rcases List.mem_append.mp hs with h1 | h1
      · rcases retiredOf_mem h1 with ⟨q, hq, hterm, he⟩
        rcases hf q hq with ⟨hrow, _, _, hlen⟩
        rw [he, hlen]
        omega
      · refine ih (nextFrontier g (p :: f0)) ?_ sig h1
        intro q hq
        exact nextFrontier_inv (fun r hr => ⟨(hf r hr).2.1, (hf r hr).2.2⟩) q hq

/-- C10 amended: every path of every frontier of part2 has signature
length exactly its row (the initial path has row 0 and empty signature
and each successor increments both by one); consequently every signature
recorded in the dedup set has length exactly height minus one, the row of
the last line of the grid. -/
theorem c10_signature_length (g : Grid) (start_col : Nat) (hs : start_col < g.width) :
    (∀ (k : Nat), ∀ p ∈ frontiers g start_col k, p.sig.length = p.row) ∧
      ∀ sig ∈ (part2Run g start_col).1.contents, sig.length = g.height - 1 := by
  constructor
  · intro k p hp
    exact (frontiers_inv hs k p hp).2.2.2
  · intro sig hsig
    have hinit : ∀ p ∈ [initPath start_col], SigOK p.sig := by
      intro p hp
      rw [List.mem_singleton.mp hp]
      intro ch hch
      exact absurd hch (List.not_mem_nil ch)
    have hrun : part2Run g start_col
        = runSim g (g.height + 1) [initPath start_col] HashSet.empty 0 := rfl
    rcases runSim_spec g (g.height + 1) [initPath start_col] HashSet.empty 0
        SetWF_empty hinit with ⟨_, hmem, _⟩
    rw [← hrun] at hmem
    have hsig2 : sig ∈ runRetired g (g.height + 1) [initPath start_col] := by
      rcases (hmem sig).mp hsig with h1 | h1
      · exact absurd h1 (List.not_mem_nil sig)
      · exact h1
    refine runRetired_length (g.height + 1) [initPath start_col] ?_ sig hsig2
    intro p hp
    rw [List.mem_singleton.mp hp]
    exact initPath_inv hs

theorem c10_witness :
    1 < (Grid.mk [['.', 'S', '.'], ['.', '^', '.']]).width ∧
      (['R'] : List Char).length
        = (Grid.mk [['.', 'S', '.'], ['.', '^', '.']]).height - 1 :=
  ⟨by decide,
    (c10_signature_length ⟨[['.', 'S', '.'], ['.', '^', '.']]⟩ 1 (by decide)).2
      ['R'] (by decide)⟩

end Day07
